import Mathlib

/-!
Verification of the telemetry-to-path reconstruction and ranking engine of
formula-viz.  Floating point arithmetic of the source is embedded as exact
rational arithmetic; `**0.5` / `math.sqrt` calls are threaded through an
explicit square-root parameter `sqrt : ℚ → ℚ`, and `ratSqrt` instantiates it
exactly on inputs whose numerator and denominator are perfect squares.
Potentially crashing operations (out-of-bounds indexing, unbounded loops)
return `Option`, with `none` marking the crash / fuel exhaustion.
-/

namespace FormulaViz

/-- A 2D point (x, y). -/
abbrev Pt2 := ℚ × ℚ

/-- A 3D point (x, y, z). -/
abbrev Pt3 := ℚ × ℚ × ℚ

/-- Exact rational square root for concrete instantiations: correct whenever
the numerator and the denominator are perfect squares. -/
def ratSqrt (q : ℚ) : ℚ := (Nat.sqrt q.num.toNat : ℚ) / (Nat.sqrt q.den : ℚ)

theorem ratSqrt_sq (a : ℚ) (h : 0 ≤ a) : ratSqrt (a ^ 2) = a := by
  have hnum : 0 ≤ a.num := Rat.num_nonneg.mpr h
  unfold ratSqrt
  rw [Rat.num_pow, Rat.den_pow]
  have hn : (a.num ^ 2).toNat = a.num.toNat ^ 2 := by
    have h2 : (a.num ^ 2) = ((a.num.toNat ^ 2 : ℕ) : ℤ) := by
      push_cast [Int.toNat_of_nonneg hnum]
      ring
    rw [h2, Int.toNat_natCast]
  rw [hn, Nat.sqrt_eq', Nat.sqrt_eq']
  have hc : ((a.num.toNat : ℚ)) = ((a.num : ℤ) : ℚ) := by
    exact_mod_cast congrArg (Int.cast : ℤ → ℚ) (Int.toNat_of_nonneg hnum)
  rw [hc]
  exact Rat.num_div_den a

/-! ## assign_inner_outer (load_track_data.py 298-352) -/

/-- One 2D segment length in the path-length accumulation of
`assign_inner_outer` (load_track_data.py 336-343): `((xi-xi1)**2 + (yi-yi1)**2) ** 0.5`. -/
def segLen2D (sqrt : ℚ → ℚ) (p q : Pt3) : ℚ :=
  sqrt ((p.1 - q.1) ^ 2 + (p.2.1 - q.2.1) ^ 2)

/-- Cumulative 2D path length over consecutive points,
the `for i in range(len(lefts) - 1)` accumulation of `assign_inner_outer`. -/
def pathLen2D (sqrt : ℚ → ℚ) : List Pt3 → ℚ
  | p :: q :: rest => segLen2D sqrt p q + pathLen2D sqrt (q :: rest)
  | _ => 0

/-- `assign_inner_outer` (load_track_data.py 333-352): computes both path
lengths, then branches on `left_dist <= right_dist`; NOTE both branches of the
source assign `inner_points = lefts; outer_points = rights`, and the function
returns `(inner_points, outer_points)`. -/
def assign_inner_outer (sqrt : ℚ → ℚ) (lefts rights : List Pt3) :
    List Pt3 × List Pt3 :=
  let left_dist := pathLen2D sqrt lefts
  let right_dist := pathLen2D sqrt rights
  if left_dist ≤ right_dist then (lefts, rights) else (lefts, rights)

/-- The left boundary of the C2 failing input: a single segment of length 10. -/
def c2lefts : List Pt3 := [(0, 0, 0), (10, 0, 0)]

/-- The right boundary of the C2 failing input: a single segment of length 1. -/
def c2rights : List Pt3 := [(0, 0, 0), (1, 0, 0)]

/-- C2: the claim says `assign_inner_outer` returns as inner whichever
sequence has the smaller summed 2D path length.  The code contradicts its own
docstring: both branches of the `if` return `(lefts, rights)`, so with a right
boundary of length 1 and a left boundary of length 10 the *longer* left
boundary is still returned as the inner curve. -/
theorem c2_assign_inner_outer_ignores_length :
    pathLen2D ratSqrt c2rights < pathLen2D ratSqrt c2lefts ∧
    (assign_inner_outer ratSqrt c2lefts c2rights).1 = c2lefts := by
  have h10 := ratSqrt_sq 10 (by norm_num)
  have h1 := ratSqrt_sq 1 (by norm_num)
  norm_num at h10 h1
  constructor
  · norm_num [pathLen2D, segLen2D, c2lefts, c2rights, h10, h1]
  · unfold assign_inner_outer
    dsimp only
    split
    · rfl
    · rfl

/-! ## in_track_limits and optimize_smoothness (load_driver_data.py 823-870) -/

/-- `in_track_limits` (load_driver_data.py 823-843).  The nested loops return
`False` at the first row pair `(i, j)` with `dist_inner > 1 or dist_outer > 1`
and `True` once both loops finish, which is this double `all`.  A driver df is
its list of (X, Y) rows; a track edge row is an (inner, outer) point pair. -/
def in_track_limits (sqrt : ℚ → ℚ) (driver_df : List Pt2)
    (track_edges : List (Pt2 × Pt2)) : Bool :=
  driver_df.all fun cur_point =>
    track_edges.all fun edge =>
      let dist_inner :=
        sqrt ((cur_point.1 - edge.1.1) ^ 2 + (cur_point.2 - edge.1.2) ^ 2)
      let dist_outer :=
        sqrt ((cur_point.1 - edge.2.1) ^ 2 + (cur_point.2 - edge.2.2) ^ 2)
      if dist_inner > 1 ∨ dist_outer > 1 then false else true

/-- `max_s_divisor = 10` (load_driver_data.py 852). -/
def max_s_divisor : ℕ := 10

/-- State of the `while not found_max_smoothness` loop of
`optimize_smoothness`: the divisor, the flag, and the `dfs` dict (modelled as
a partial map from driver to the (X, Y) rows of its dataframe; the scipy
spline fitting of `get_driver_df` is abstracted as the oracle parameter
`get_driver_df : D → ℕ → List Pt2`). -/
structure OptState (D : Type) where
  s_divisor : ℕ
  found_max_smoothness : Bool
  dfs : D → Option (List Pt2)

/-- The `for driver, tel in driver_tels.items()` loop (load_driver_data.py
861-866): fit each driver at the current divisor; on the first track-limit
failure the divisor is incremented and the loop breaks.  Returns the updated
dict and whether the break was taken. -/
def runPass {D : Type} [DecidableEq D] (sqrt : ℚ → ℚ)
    (track_edges : List (Pt2 × Pt2)) (get_driver_df : D → ℕ → List Pt2)
    (s_divisor : ℕ) :
    List D → (D → Option (List Pt2)) → (D → Option (List Pt2)) × Bool
  | [], dfs => (dfs, false)
  | d :: rest, dfs =>
      let df := get_driver_df d s_divisor
      let dfs1 : D → Option (List Pt2) := fun x => if x = d then some df else dfs x
      if in_track_limits sqrt df track_edges then
        runPass sqrt track_edges get_driver_df s_divisor rest dfs1
      else
        (dfs1, true)

/-- One execution of the while-loop body (load_driver_data.py 855-868).
Lines 856-859 (the past-max warning path) refit every driver first; lines
861-866 are `runPass`; line 868 sets `found_max_smoothness = True`
unconditionally. -/
def optimize_smoothness_body {D : Type} [DecidableEq D] (sqrt : ℚ → ℚ)
    (track_edges : List (Pt2 × Pt2)) (get_driver_df : D → ℕ → List Pt2)
    (drivers : List D) (st : OptState D) : OptState D :=
  let dfs0 : D → Option (List Pt2) :=
    if st.s_divisor > max_s_divisor then
      drivers.foldl
        (fun acc d x =>
          if x = d then some (get_driver_df d st.s_divisor) else acc x)
        st.dfs
    else st.dfs
  let pr := runPass sqrt track_edges get_driver_df st.s_divisor drivers dfs0
  { s_divisor := if pr.2 then st.s_divisor + 1 else st.s_divisor
    found_max_smoothness := true
    dfs := pr.1 }

/-- The `while not found_max_smoothness` loop with fuel
(`none` = fuel exhausted before the loop condition became false). -/
def optimize_smoothness_loop {D : Type} [DecidableEq D] (sqrt : ℚ → ℚ)
    (track_edges : List (Pt2 × Pt2)) (get_driver_df : D → ℕ → List Pt2)
    (drivers : List D) : ℕ → OptState D → Option (OptState D)
  | 0, _ => none
  | fuel + 1, st =>
      if st.found_max_smoothness then some st
      else
        optimize_smoothness_loop sqrt track_edges get_driver_df drivers fuel
          (optimize_smoothness_body sqrt track_edges get_driver_df drivers st)

/-- `optimize_smoothness` (load_driver_data.py 846-870): the loop started at
`s_divisor = 3`, `found_max_smoothness = False`, empty `dfs`. -/
def optimize_smoothness {D : Type} [DecidableEq D] (sqrt : ℚ → ℚ)
    (track_edges : List (Pt2 × Pt2)) (get_driver_df : D → ℕ → List Pt2)
    (drivers : List D) (fuel : ℕ) : Option (OptState D) :=
  optimize_smoothness_loop sqrt track_edges get_driver_df drivers fuel
    { s_divisor := 3, found_max_smoothness := false, dfs := fun _ => none }

/-- C1 failing input: one track-edge row whose inner and outer points are both
100 meters from the single driver point `(0, 0)`. -/
def c1edges : List (Pt2 × Pt2) := [(((100 : ℚ), 0), ((100 : ℚ), 0))]

/-- C1 failing input: the (abstracted) fit always returns the single point
`(0, 0)`, which is out of track limits at every divisor. -/
def c1get_df : Unit → ℕ → List Pt2 := fun _ _ => [(0, 0)]

/-- C1: the claim says the retry loop of `optimize_smoothness` does not exit
while some driver's path fails the 1-meter track-limit check and the divisor
is still at most the maximum (10).  The code sets `found_max_smoothness =
True` unconditionally at the end of the first pass, so with a driver that is
out of limits at every divisor the loop still exits after one pass, at
divisor 4 (≤ 10), returning the failing dataframe. -/
theorem c1_optimize_smoothness_exits_after_one_pass :
    ∃ st : OptState Unit,
      optimize_smoothness ratSqrt c1edges c1get_df [()] 5 = some st ∧
      st.s_divisor = 4 ∧
      st.s_divisor ≤ max_s_divisor ∧
      st.dfs () = some [(0, 0)] ∧
      in_track_limits ratSqrt [(0, 0)] c1edges = false := by
  have h100 := ratSqrt_sq 100 (by norm_num)
  norm_num at h100
  have hlim : in_track_limits ratSqrt [((0 : ℚ), (0 : ℚ))] c1edges = false := by
    norm_num [in_track_limits, c1edges, h100]
  have hloop : optimize_smoothness ratSqrt c1edges c1get_df [()] 5 =
      some
        { s_divisor := 4
          found_max_smoothness := true
          dfs := fun x => if x = () then some [(0, 0)] else none } := by
    have hlim2 : in_track_limits ratSqrt [0] c1edges = false := hlim
    simp [optimize_smoothness, optimize_smoothness_loop, optimize_smoothness_body,
      runPass, c1get_df, hlim, hlim2, max_s_divisor]
  exact ⟨_, hloop, rfl, by norm_num [max_s_divisor], by simp, hlim⟩

/-! ## The local nearest-segment search of get_driver_df
(load_driver_data.py 374-433) -/

/-- Loop state of the `while idx != end_idx` search (load_driver_data.py
376-417).  `min_dist = none` models the initial `float("inf")`. -/
structure SegSearchState where
  idx : ℕ
  min_dist : Option ℚ
  closest_t : ℚ
  closest_inner : Option Pt3
  closest_outer : Option Pt3
  closest_idx : ℕ

/-- `dist < min_dist` where `min_dist` may still be infinity. -/
def ltInf (d : ℚ) : Option ℚ → Bool
  | none => true
  | some m => d < m

/-- The `while idx != end_idx` loop of `get_driver_df` (load_driver_data.py
391-417), with fuel (`none` = the loop did not reach `end_idx` within
`fuel` iterations).  Faithful to the source, the zero-length-segment guard
(lines 403-404) is a `continue` that leaves `idx` unchanged. -/
def segment_search_loop (sqrt : ℚ → ℚ) (inner_points outer_points : List Pt3)
    (x y : ℚ) (end_idx : ℕ) : ℕ → SegSearchState → Option SegSearchState
  | 0, _ => none
  | fuel + 1, st =>
      if st.idx = end_idx then some st
      else
        let track_length := inner_points.length
        let inner_point := inner_points.getD st.idx (0, 0, 0)
        let outer_point := outer_points.getD st.idx (0, 0, 0)
        let line_vec : Pt2 :=
          (outer_point.1 - inner_point.1, outer_point.2.1 - inner_point.2.1)
        let line_length_squared := line_vec.1 ^ 2 + line_vec.2 ^ 2
        if line_length_squared = 0 then
          segment_search_loop sqrt inner_points outer_points x y end_idx fuel st
        else
          let t0 := ((x - inner_point.1) * line_vec.1 +
            (y - inner_point.2.1) * line_vec.2) / line_length_squared
          let t := max 0 (min 1 t0)
          let closest_point : Pt2 :=
            (inner_point.1 + t * line_vec.1, inner_point.2.1 + t * line_vec.2)
          let dist := sqrt ((x - closest_point.1) ^ 2 + (y - closest_point.2) ^ 2)
          let st1 :=
            if ltInf dist st.min_dist then
              { st with
                min_dist := some dist
                closest_t := t
                closest_inner := some inner_point
                closest_outer := some outer_point
                closest_idx := st.idx }
            else st
          segment_search_loop sqrt inner_points outer_points x y end_idx fuel
            { st1 with idx := (st.idx + 1) % track_length }

/-- Once `idx` sits on a zero-length segment short of `end_idx`, the loop
state never changes: the search diverges for every amount of fuel. -/
theorem segment_search_loop_stuck (sqrt : ℚ → ℚ)
    (inner_points outer_points : List Pt3) (x y : ℚ) (end_idx : ℕ)
    (st : SegSearchState) (hne : st.idx ≠ end_idx)
    (hzero :
      ((outer_points.getD st.idx (0, 0, 0)).1 -
          (inner_points.getD st.idx (0, 0, 0)).1) ^ 2 +
        ((outer_points.getD st.idx (0, 0, 0)).2.1 -
          (inner_points.getD st.idx (0, 0, 0)).2.1) ^ 2 = 0) :
    ∀ fuel, segment_search_loop sqrt inner_points outer_points x y end_idx
      fuel st = none := by
  intro fuel
  induction fuel with
  | zero => rfl
  | succ n ih =>
      rw [segment_search_loop]
      rw [if_neg hne]
      dsimp only
      rw [if_pos hzero]
      exact ih

/-- C3 failing input: a three-row track whose first inner/outer point pair
coincides in 2D (a zero-length projection segment). -/
def c3inner : List Pt3 := [(0, 0, 0), (1, 0, 0), (2, 0, 0)]

/-- C3 failing input, outer points: the first outer point equals the first
inner point in (x, y) (it differs only in z, which the segment ignores). -/
def c3outer : List Pt3 := [(0, 0, 5), (1, 9, 0), (2, 9, 0)]

/-- The initial state of the search for the first telemetry sample
(load_driver_data.py 376-384): `idx = start_idx = 0`, `min_dist = inf`. -/
def initSearchState : SegSearchState :=
  { idx := 0
    min_dist := none
    closest_t := 0
    closest_inner := none
    closest_outer := none
    closest_idx := 0 }

/-- C3: the claim says a zero-length inner-outer segment is skipped and the
search goes on and terminates normally.  In the code the `continue` sits in a
`while` loop whose `idx = (idx + 1) % track_length` increment is at the
bottom of the body, so `continue` re-tests the loop condition with `idx`
unchanged: on a track whose segment 0 has zero 2D length, the first sample's
search (window 0..2) never terminates, for any amount of fuel. -/
theorem c3_segment_search_diverges_on_zero_length_segment :
    ∀ fuel, segment_search_loop ratSqrt c3inner c3outer 5 5 2 fuel
      initSearchState = none := by
  apply segment_search_loop_stuck
  · decide
  · norm_num [c3inner, c3outer, initSearchState]

/-! ## Frame index maps (load_data_main.py 57-68) -/

/-- `absolute_frame_to_sped_frame[i]` as built by the loop in
`load_data_main` (load_data_main.py 59-67): `cur_sped_frame` starts at -1 and
increments exactly on each non-skipped frame; frame `i` is assigned the value
current after processing frame `i`.  `skip i` models
`should_skip_point.get(i, False)`. -/
def absolute_frame_to_sped_frame (skip : ℕ → Bool) : ℕ → ℤ
  | 0 => if skip 0 then -1 else 0
  | i + 1 =>
      absolute_frame_to_sped_frame skip i + (if skip (i + 1) then 0 else 1)

/-- `sped_frame_to_absolute_frame` after the loop over frames `0..n-1`
(load_data_main.py 68): the key `cur_sped_frame` is overwritten at every
frame, so a key's final value is the **last** frame that wrote it; lookups
check the latest frame first. -/
def sped_frame_to_absolute_frame (skip : ℕ → Bool) : ℕ → ℤ → Option ℕ
  | 0, _ => none
  | n + 1, s =>
      if absolute_frame_to_sped_frame skip n = s then some n
      else sped_frame_to_absolute_frame skip n s

theorem absolute_frame_to_sped_frame_le_succ (skip : ℕ → Bool) (i : ℕ) :
    absolute_frame_to_sped_frame skip i ≤
      absolute_frame_to_sped_frame skip (i + 1) := by
  rw [absolute_frame_to_sped_frame]
  split
  · omega
  · omega

theorem absolute_frame_to_sped_frame_mono (skip : ℕ → Bool) :
    Monotone (absolute_frame_to_sped_frame skip) :=
  monotone_nat_of_le_succ (absolute_frame_to_sped_frame_le_succ skip)

theorem sped_frame_to_absolute_frame_some (skip : ℕ → Bool) :
    ∀ n s i, sped_frame_to_absolute_frame skip n s = some i →
      i < n ∧ absolute_frame_to_sped_frame skip i = s := by
  intro n
  induction n with
  | zero => intro s i h; cases h
  | succ m ih =>
      intro s i h
      rw [sped_frame_to_absolute_frame] at h
      by_cases hc : absolute_frame_to_sped_frame skip m = s
      · rw [if_pos hc] at h
        cases h
        exact ⟨Nat.lt_succ_self m, hc⟩
      · rw [if_neg hc] at h
        have := ih s i h
        exact ⟨Nat.lt_succ_of_lt this.1, this.2⟩

theorem sped_frame_to_absolute_frame_surj (skip : ℕ → Bool) :
    ∀ n i, i < n → ∃ j, sped_frame_to_absolute_frame skip n
      (absolute_frame_to_sped_frame skip i) = some j := by
  intro n
  induction n with
  | zero => intro i h; omega
  | succ m ih =>
      intro i h
      rw [sped_frame_to_absolute_frame]
      by_cases hc : absolute_frame_to_sped_frame skip m =
          absolute_frame_to_sped_frame skip i
      · exact ⟨m, if_pos hc⟩
      · have him : i ≠ m := fun he => hc (he ▸ rfl)
        have hlt : i < m := by omega
        obtain ⟨j, hj⟩ := ih i hlt
        exact ⟨j, by rw [if_neg hc]; exact hj⟩

/-- C4: the frame-index maps built in `load_data_main` from any skip
predicate: the absolute-to-sped map is monotone non-decreasing, the
sped-to-absolute map is monotone non-decreasing, every sped index present in
the sped-to-absolute dict is the image of an absolute frame below `N`
(surjectivity), every absolute-to-sped value below `N` occurs as a
sped-to-absolute key, and the set of sped values is no larger than the set of
`N` absolute frames. -/
theorem c4_frame_index_maps_monotone_surjective (skip : ℕ → Bool) (N : ℕ) :
    (∀ i j, i ≤ j →
      absolute_frame_to_sped_frame skip i ≤
        absolute_frame_to_sped_frame skip j) ∧
    (∀ s1 s2 i1 i2, s1 ≤ s2 →
      sped_frame_to_absolute_frame skip N s1 = some i1 →
      sped_frame_to_absolute_frame skip N s2 = some i2 → i1 ≤ i2) ∧
    (∀ s i, sped_frame_to_absolute_frame skip N s = some i →
      i < N ∧ absolute_frame_to_sped_frame skip i = s) ∧
    (∀ i, i < N → ∃ j, j < N ∧
      sped_frame_to_absolute_frame skip N
        (absolute_frame_to_sped_frame skip i) = some j ∧
      absolute_frame_to_sped_frame skip j =
        absolute_frame_to_sped_frame skip i) ∧
    ((List.range N).map (absolute_frame_to_sped_frame skip)).dedup.length
      ≤ N := by
  refine ⟨fun i j h => absolute_frame_to_sped_frame_mono skip h, ?_, ?_, ?_, ?_⟩
  · intro s1 s2 i1 i2 hs h1 h2
    obtain ⟨hi1, ha1⟩ := sped_frame_to_absolute_frame_some skip N s1 i1 h1
    obtain ⟨hi2, ha2⟩ := sped_frame_to_absolute_frame_some skip N s2 i2 h2
    by_contra hlt
    push_neg at hlt
    have hle : absolute_frame_to_sped_frame skip i2 ≤
        absolute_frame_to_sped_frame skip i1 :=
      absolute_frame_to_sped_frame_mono skip (Nat.le_of_lt hlt)
    have heq : s1 = s2 := le_antisymm hs (by rw [← ha1, ← ha2]; exact hle)
    rw [heq] at h1
    rw [h1] at h2
    cases h2
    omega
  · exact sped_frame_to_absolute_frame_some skip N
  · intro i hi
    obtain ⟨j, hj⟩ := sped_frame_to_absolute_frame_surj skip N i hi
    obtain ⟨hjN, hja⟩ := sped_frame_to_absolute_frame_some skip N _ j hj
    exact ⟨j, hjN, hj, hja⟩
  · calc ((List.range N).map (absolute_frame_to_sped_frame skip)).dedup.length
        ≤ ((List.range N).map (absolute_frame_to_sped_frame skip)).length :=
          (List.dedup_sublist _).length_le
      _ = N := by rw [List.length_map, List.length_range]

/-- Witness for C4 at `skip = (· % 2 == 0)` and `N = 4`: frames 0 and 2 are
skipped, so the absolute-to-sped values are -1, 0, 0, 1. -/
theorem c4_frame_index_maps_witness :
    absolute_frame_to_sped_frame (fun i => i % 2 == 0) 1 ≤
      absolute_frame_to_sped_frame (fun i => i % 2 == 0) 3 ∧
    (1 : ℕ) ≤ 3 ∧
    sped_frame_to_absolute_frame (fun i => i % 2 == 0) 4 0 = some 2 ∧
    sped_frame_to_absolute_frame (fun i => i % 2 == 0) 4 1 = some 3 ∧
    (2 : ℕ) ≤ 3 := by
  have h := c4_frame_index_maps_monotone_surjective (fun i => i % 2 == 0) 4
  have h0 : sped_frame_to_absolute_frame (fun i => i % 2 == 0) 4 0 = some 2 := by
    decide
  have h1 : sped_frame_to_absolute_frame (fun i => i % 2 == 0) 4 1 = some 3 := by
    decide
  exact ⟨h.1 1 3 (by decide), by decide, h0, h1,
    h.2.1 0 1 2 3 (by decide) h0 h1⟩

/-! ## set_fast_forward_frames (setup_fast_forward.py 10-137)

The float/trig classification of a frame (lines 57-86) is abstracted as an
oracle `classify : ℕ → Option Bool`: `none` models a zero-length direction
vector (the frame is not appended to `is_on_straight`, lines 71-86), and
`some b` models `angle < straight_line_threshold = b`.  Everything after the
classification (grouping, capping, column assignment) is integer/boolean code
and is embedded exactly. -/

/-- The `is_on_straight` list (setup_fast_forward.py 55-86): one `(i, b)`
entry per frame `i` in `range(start_buffer + lookahead, total_frames -
end_buffer - lookahead)` whose two direction vectors are nonzero. -/
def is_on_straight_list (classify : ℕ → Option Bool)
    (start_buffer end_buffer lookahead total_frames : ℕ) : List (ℕ × Bool) :=
  (List.range' (start_buffer + lookahead)
      (total_frames - end_buffer - lookahead - (start_buffer + lookahead))).filterMap
    fun i => (classify i).map fun b => (i, b)

/-- `num_in_group` for an entry `(idx, True)` (setup_fast_forward.py 92-97):
`1` plus the run of consecutive straight entries of `is_on_straight` starting
at list position `idx + 1`.  Faithful to the source, `idx` here is the
**frame number**, used as a list index. -/
def num_in_group (orig : List (ℕ × Bool)) (idx : ℕ) : ℕ :=
  1 + ((orig.drop (idx + 1)).takeWhile fun p => p.2).length

/-- The grouping/filtering pass building `new_is_on_straight`
(setup_fast_forward.py 88-108), iterating over the entries while carrying
`was_previous_straight` and consulting the full original list `orig`. -/
def group_pass (orig : List (ℕ × Bool)) :
    List (ℕ × Bool) → Bool → List (ℕ × Bool)
  | [], _ => []
  | (idx, is_straight) :: rest, was_previous_straight =>
      if is_straight && !was_previous_straight then
        if 15 ≤ num_in_group orig idx then
          (idx, true) :: group_pass orig rest true
        else
          (idx, false) :: group_pass orig rest was_previous_straight
      else if is_straight && was_previous_straight then
        (idx, true) :: group_pass orig rest was_previous_straight
      else
        (idx, false) :: group_pass orig rest false

/-- The skip-cap pass (setup_fast_forward.py 114-121): a straight entry is
kept as a skip only while `skipped_in_a_row < 2`, else it is forced to
`False` and the counter resets. -/
def cap_pass : List (ℕ × Bool) → ℕ → List (ℕ × Bool)
  | [], _ => []
  | (idx, is_straight) :: rest, skipped_in_a_row =>
      if is_straight && decide (skipped_in_a_row < 2) then
        (idx, true) :: cap_pass rest (skipped_in_a_row + 1)
      else
        (idx, false) :: cap_pass rest 0

/-- The per-frame boolean of the final `new_is_on_straight` dict
(setup_fast_forward.py 123-128): frames absent from the dict stay `False`. -/
def final_skip_map (l : List (ℕ × Bool)) : ℕ → Bool :=
  fun i => (l.lookup i).getD false

/-- `set_fast_forward_frames` (setup_fast_forward.py 10-137) as the per-frame
FastForward boolean shared by every driver: `start_buffer` is
`config start_buffer_frames * 2` (line 39); if the focused driver has too few
frames the function returns with every FastForward still `False` (lines
43-53); otherwise the classification is grouped, capped and written. -/
def set_fast_forward_frames (classify : ℕ → Option Bool)
    (start_buffer_frames end_buffer_frames lookahead total_frames : ℕ) :
    ℕ → Bool :=
  let start_buffer := start_buffer_frames * 2
  if total_frames ≤ start_buffer + end_buffer_frames + 2 * lookahead then
    fun _ => false
  else
    let l := is_on_straight_list classify start_buffer end_buffer_frames
      lookahead total_frames
    final_skip_map (cap_pass (group_pass l l false) 0)

/-- The FastForward column written into each driver's dataframe
(setup_fast_forward.py 42-44 and 123-128): one boolean per row. -/
def fast_forward_columns (classify : ℕ → Option Bool)
    (start_buffer_frames end_buffer_frames lookahead total_frames : ℕ)
    (driver_lens : List ℕ) : List (List Bool) :=
  driver_lens.map fun m =>
    (List.range m).map
      (set_fast_forward_frames classify start_buffer_frames end_buffer_frames
        lookahead total_frames)

/-- Keys of an association list, pairwise strictly increasing. -/
def KeysLT (l : List (ℕ × Bool)) : Prop :=
  l.Pairwise fun p q => p.1 < q.1

theorem lookup_head (k : ℕ) (v : Bool) (t : List (ℕ × Bool)) :
    ((k, v) :: t).lookup k = some v := by
  simp [List.lookup]

theorem lookup_tail (j k : ℕ) (v : Bool) (t : List (ℕ × Bool)) (h : j ≠ k) :
    ((k, v) :: t).lookup j = t.lookup j := by
  have hb : (j == k) = false := beq_eq_false_iff_ne.mpr h
  simp [List.lookup, hb]

theorem lookup_none_of_lt_keys (j : ℕ) :
    ∀ l : List (ℕ × Bool), (∀ p ∈ l, j < p.1) → l.lookup j = none := by
  intro l
  induction l with
  | nil => intro _; rfl
  | cons p t ih =>
      intro h
      have hne : j ≠ p.1 := Nat.ne_of_lt (h p (List.mem_cons_self p t))
      obtain ⟨k, v⟩ := p
      rw [lookup_tail j k v t hne]
      exact ih fun q hq => h q (List.mem_cons_of_mem _ hq)

theorem cap_pass_keys :
    ∀ (l : List (ℕ × Bool)) (c : ℕ),
      (cap_pass l c).map Prod.fst = l.map Prod.fst := by
  intro l
  induction l with
  | nil => intro c; rfl
  | cons p t ih =>
      intro c
      obtain ⟨idx, s⟩ := p
      rw [cap_pass]
      split
      · simp [ih]
      · simp [ih]

theorem cap_pass_lookup_none (j : ℕ) (t : List (ℕ × Bool)) (c : ℕ)
    (h : ∀ q ∈ t, j < q.1) : (cap_pass t c).lookup j = none := by
  apply lookup_none_of_lt_keys
  intro p hp
  have hmem : p.1 ∈ (cap_pass t c).map Prod.fst := List.mem_map_of_mem _ hp
  rw [cap_pass_keys] at hmem
  obtain ⟨q, hq, hqe⟩ := List.mem_map.mp hmem
  exact hqe ▸ h q hq

/-- Three entries at consecutive frame indices can never all survive the
skip-cap pass as `True`: the third one is written when `skipped_in_a_row`
has already reached 2. -/
theorem cap_pass_no_three_consecutive :
    ∀ (l : List (ℕ × Bool)) (c i : ℕ), KeysLT l →
      ((cap_pass l c).lookup i).getD false = true →
      ((cap_pass l c).lookup (i + 1)).getD false = true →
      ((cap_pass l c).lookup (i + 2)).getD false = true → False := by
  intro l
  induction l with
  | nil =>
      intro c i _ h0 _ _
      simp [cap_pass, List.lookup] at h0
  | cons p t ih =>
      intro c i hK h0 h1 h2
      obtain ⟨k, s⟩ := p
      obtain ⟨hklt, hKt⟩ := List.pairwise_cons.mp hK
      by_cases hik : i = k
      · subst hik
        -- the head entry is the one at frame i; it must be a `True` entry
        rw [cap_pass] at h0 h1 h2
        by_cases hs : (s && decide (c < 2)) = true
        · rw [if_pos hs] at h0 h1 h2
          rw [lookup_tail (i + 1) i true _ (by omega)] at h1
          rw [lookup_tail (i + 2) i true _ (by omega)] at h2
          -- the entry at frame i+1 must head the tail
          cases t with
          | nil => simp [cap_pass, List.lookup] at h1
          | cons q t2 =>
              obtain ⟨k2, b2⟩ := q
              have hk2 : i < k2 := hklt (k2, b2) (List.mem_cons_self _ _)
              by_cases hk2e : k2 = i + 1
              · subst hk2e
                obtain ⟨hk2lt, hKt2⟩ := List.pairwise_cons.mp hKt
                rw [cap_pass] at h1 h2
                by_cases hs2 : (b2 && decide (c + 1 < 2)) = true
                · rw [if_pos hs2] at h1 h2
                  rw [lookup_tail (i + 2) (i + 1) true _ (by omega)] at h2
                  -- the counter is now 2; the entry at i+2 cannot be True
                  cases t2 with
                  | nil => simp [cap_pass, List.lookup] at h2
                  | cons r t3 =>
                      obtain ⟨k3, b3⟩ := r
                      have hk3 : i + 1 < k3 := hk2lt (k3, b3) (List.mem_cons_self _ _)
                      by_cases hk3e : k3 = i + 2
                      · subst hk3e
                        have hc2 : c + 1 + 1 = 2 := by
                          have := of_decide_eq_true (Bool.and_elim_right hs2)
                          omega
                        rw [cap_pass, hc2] at h2
                        rw [if_neg (by simp)] at h2
                        rw [lookup_head] at h2
                        simp at h2
                      · have : i + 2 < k3 := by omega
                        obtain ⟨hk3lt, _⟩ := List.pairwise_cons.mp hKt2
                        rw [cap_pass] at h2
                        by_cases hs3 : (b3 && decide (c + 1 + 1 < 2)) = true
                        · rw [if_pos hs3] at h2
                          rw [lookup_tail (i + 2) k3 true _ (by omega)] at h2
                          rw [cap_pass_lookup_none (i + 2) t3 _
                            (fun q hq => by have := hk3lt q hq; omega)] at h2
                          simp at h2
                        · rw [if_neg hs3] at h2
                          rw [lookup_tail (i + 2) k3 false _ (by omega)] at h2
                          rw [cap_pass_lookup_none (i + 2) t3 _
                            (fun q hq => by have := hk3lt q hq; omega)] at h2
                          simp at h2
                · rw [if_neg hs2] at h1
                  rw [lookup_head] at h1
                  simp at h1
              · -- k2 > i + 1: frame i+1 is in no entry at all
                have hgt : i + 1 < k2 := by omega
                obtain ⟨hk2lt, _⟩ := List.pairwise_cons.mp hKt
                rw [cap_pass] at h1
                by_cases hs2 : (b2 && decide (c + 1 < 2)) = true
                · rw [if_pos hs2] at h1
                  rw [lookup_tail (i + 1) k2 true _ (by omega)] at h1
                  rw [cap_pass_lookup_none (i + 1) t2 _
                    (fun q hq => by have := hk2lt q hq; omega)] at h1
                  simp at h1
                · rw [if_neg hs2] at h1
                  rw [lookup_tail (i + 1) k2 false _ (by omega)] at h1
                  rw [cap_pass_lookup_none (i + 1) t2 _
                    (fun q hq => by have := hk2lt q hq; omega)] at h1
                  simp at h1
        · rw [if_neg hs] at h0
          rw [lookup_head] at h0
          simp at h0
      · by_cases hilt : i < k
        · -- frame i is below every key
          rw [cap_pass] at h0
          by_cases hs : (s && decide (c < 2)) = true
          · rw [if_pos hs] at h0
            rw [lookup_tail i k true _ hik] at h0
            rw [cap_pass_lookup_none i t _
              (fun q hq => by have := hklt q hq; omega)] at h0
            simp at h0
          · rw [if_neg hs] at h0
            rw [lookup_tail i k false _ hik] at h0
            rw [cap_pass_lookup_none i t _
              (fun q hq => by have := hklt q hq; omega)] at h0
            simp at h0
        · -- i > k: all three lookups fall through to the tail
          have hgt : k < i := by omega
          rw [cap_pass] at h0 h1 h2
          by_cases hs : (s && decide (c < 2)) = true
          · rw [if_pos hs] at h0 h1 h2
            rw [lookup_tail i k true _ hik] at h0
            rw [lookup_tail (i + 1) k true _ (by omega)] at h1
            rw [lookup_tail (i + 2) k true _ (by omega)] at h2
            exact ih (c + 1) i hKt h0 h1 h2
          · rw [if_neg hs] at h0 h1 h2
            rw [lookup_tail i k false _ hik] at h0
            rw [lookup_tail (i + 1) k false _ (by omega)] at h1
            rw [lookup_tail (i + 2) k false _ (by omega)] at h2
            exact ih 0 i hKt h0 h1 h2

theorem group_pass_keys (orig : List (ℕ × Bool)) :
    ∀ (l : List (ℕ × Bool)) (b : Bool),
      (group_pass orig l b).map Prod.fst = l.map Prod.fst := by
  intro l
  induction l with
  | nil => intro b; rfl
  | cons p t ih =>
      intro b
      obtain ⟨idx, s⟩ := p
      rw [group_pass]
      split
      · split
        · simp [ih]
        · simp [ih]
      · split
        · simp [ih]
        · simp [ih]

theorem group_pass_keysLT (orig l : List (ℕ × Bool)) (b : Bool)
    (h : KeysLT l) : KeysLT (group_pass orig l b) := by
  have h1 : ((group_pass orig l b).map Prod.fst).Pairwise (· < ·) := by
    rw [group_pass_keys]
    exact List.pairwise_map.mpr h
  exact List.pairwise_map.mp h1

theorem is_on_straight_list_keys_sublist (classify : ℕ → Option Bool) :
    ∀ L : List ℕ,
      List.Sublist
        ((L.filterMap fun i => (classify i).map fun b => (i, b)).map
          Prod.fst) L := by
  intro L
  induction L with
  | nil => simp
  | cons a t ih =>
      rw [List.filterMap_cons]
      cases classify a with
      | none => exact ih.cons a
      | some b => simpa using ih.cons₂ a

theorem is_on_straight_list_keysLT (classify : ℕ → Option Bool)
    (start_buffer end_buffer lookahead total_frames : ℕ) :
    KeysLT (is_on_straight_list classify start_buffer end_buffer lookahead
      total_frames) := by
  apply List.pairwise_map.mp
  apply List.Pairwise.sublist (is_on_straight_list_keys_sublist classify _)
  exact List.pairwise_lt_range' _ _ 1 (by norm_num)

/-- C7: for every classification oracle, every buffer configuration and
every absolute frame index `i`, at least one of the frames `i .. i+4` is not
marked for skipping by `set_fast_forward_frames` (in fact the cap pass
already guarantees this within any window of 3 frames). -/
theorem c7_no_run_of_more_than_four_skips
    (classify : ℕ → Option Bool)
    (start_buffer_frames end_buffer_frames lookahead total_frames i : ℕ) :
    ∃ k, k ≤ 4 ∧
      set_fast_forward_frames classify start_buffer_frames end_buffer_frames
        lookahead total_frames (i + k) = false := by
  unfold set_fast_forward_frames
  dsimp only
  split
  · exact ⟨0, by omega, rfl⟩
  · set l := is_on_straight_list classify (start_buffer_frames * 2)
      end_buffer_frames lookahead total_frames with hl
    have hK : KeysLT (group_pass l l false) :=
      group_pass_keysLT l l false (is_on_straight_list_keysLT _ _ _ _ _)
    by_cases h0 : final_skip_map (cap_pass (group_pass l l false) 0) i = false
    · exact ⟨0, by omega, h0⟩
    by_cases h1 :
        final_skip_map (cap_pass (group_pass l l false) 0) (i + 1) = false
    · exact ⟨1, by omega, h1⟩
    by_cases h2 :
        final_skip_map (cap_pass (group_pass l l false) 0) (i + 2) = false
    · exact ⟨2, by omega, h2⟩
    exfalso
    exact cap_pass_no_three_consecutive (group_pass l l false) 0 i hK
      (by simpa [final_skip_map] using eq_true_of_ne_false h0)
      (by simpa [final_skip_map] using eq_true_of_ne_false h1)
      (by simpa [final_skip_map] using eq_true_of_ne_false h2)

/-- C10: if the focused driver's path has at most
`2*start_buffer_frames + end_buffer_frames + 2*lookahead` frames, the early
return of `set_fast_forward_frames` (setup_fast_forward.py 52-53) leaves
every driver's FastForward column entirely False. -/
theorem c10_short_path_never_fast_forwards
    (classify : ℕ → Option Bool)
    (start_buffer_frames end_buffer_frames lookahead total_frames : ℕ)
    (driver_lens : List ℕ)
    (h : total_frames ≤ 2 * start_buffer_frames + end_buffer_frames +
      2 * lookahead) :
    ∀ col ∈ fast_forward_columns classify start_buffer_frames
      end_buffer_frames lookahead total_frames driver_lens,
      ∀ b ∈ col, b = false := by
  intro col hcol b hb
  unfold fast_forward_columns at hcol
  obtain ⟨m, _, rfl⟩ := List.mem_map.mp hcol
  obtain ⟨i, _, rfl⟩ := List.mem_map.mp hb
  unfold set_fast_forward_frames
  dsimp only
  rw [if_pos (by omega)]

/-- Witness for C10: 7 frames, start buffer 1, end buffer 1, lookahead 2
(bound 2*1 + 1 + 2*2 = 7), an all-straight classification, one driver with 3
rows: frame 0 is not fast-forwarded. -/
theorem c10_short_path_never_fast_forwards_witness :
    set_fast_forward_frames (fun _ => some true) 1 1 2 7 0 = false := by
  have h := c10_short_path_never_fast_forwards (fun _ => some true) 1 1 2 7 [3]
    (by norm_num)
  refine h ((List.range 3).map (set_fast_forward_frames (fun _ => some true) 1 1 2 7))
    (by simp [fast_forward_columns])
    (set_fast_forward_frames (fun _ => some true) 1 1 2 7 0) ?_
  exact List.mem_map.mpr ⟨0, by simp, rfl⟩

/-! ## Car rankings (add_car_rankings.py 14-169) -/

/-- Python list indexing semantics: a nonnegative index reads directly, a
negative index wraps once from the end, anything else raises (`none`). -/
def pyGet {α : Type} (l : List α) (i : ℤ) : Option α :=
  if 0 ≤ i then l.get? i.toNat
  else if 0 ≤ (l.length : ℤ) + i then l.get? ((l.length : ℤ) + i).toNat
  else none

/-- Componentwise difference of 3D points. -/
def sub3 (p q : Pt3) : Pt3 := (p.1 - q.1, p.2.1 - q.2.1, p.2.2 - q.2.2)

/-- 3D dot product. -/
def dot3 (p q : Pt3) : ℚ := p.1 * q.1 + p.2.1 * q.2.1 + p.2.2 * q.2.2

/-- Scalar multiple of a 3D point. -/
def smul3 (c : ℚ) (p : Pt3) : Pt3 := (c * p.1, c * p.2.1, c * p.2.2)

/-- Componentwise sum of 3D points. -/
def add3 (p q : Pt3) : Pt3 := (p.1 + q.1, p.2.1 + q.2.1, p.2.2 + q.2.2)

/-- `point_to_line_distance` (add_car_rankings.py 14-42): distance from a
point to the segment `line_start → line_end`, clamping the projection to the
segment's ends. -/
def point_to_line_distance (sqrt : ℚ → ℚ) (point line_start line_end : Pt3) :
    ℚ :=
  let line_vec := sub3 line_end line_start
  let line_length := sqrt (dot3 line_vec line_vec)
  let line_unit_vec := smul3 (1 / line_length) line_vec
  let point_vec := sub3 point line_start
  let projection_length := dot3 point_vec line_unit_vec
  if projection_length < 0 then
    sqrt (dot3 (sub3 point line_start) (sub3 point line_start))
  else if projection_length > line_length then
    sqrt (dot3 (sub3 point line_end) (sub3 point line_end))
  else
    let projection := add3 line_start (smul3 projection_length line_unit_vec)
    sqrt (dot3 (sub3 point projection) (sub3 point projection))

/-- `normalize` (add_car_rankings.py 75-76): `idx % len(inner_points)`
(Python `%`, i.e. euclidean remainder for a positive modulus). -/
def normalizeIdx (len : ℕ) (i : ℤ) : ℤ := i % (len : ℤ)

/-- The distance from the car to the inner/outer segment at (possibly
negative) index `i`, with Python indexing. -/
def dist_at (sqrt : ℚ → ℚ) (inner_points outer_points : List Pt3)
    (car_point : Pt3) (i : ℤ) : Option ℚ := do
  let ip ← pyGet inner_points i
  let op ← pyGet outer_points i
  return point_to_line_distance sqrt car_point ip op

/-- The forward hill-climbing `while` loop of `find_closest_track_idx`
(add_car_rankings.py 88-99), with fuel: advance while the next (normalized)
segment is strictly closer, recomputing `pos_distance` after each step. -/
def pos_walk (sqrt : ℚ → ℚ) (inner_points outer_points : List Pt3)
    (car_point : Pt3) (len : ℕ) : ℕ → ℤ → ℚ → Option (ℤ × ℚ)
  | 0, _, _ => none
  | fuel + 1, pos, pos_distance => do
      let dnext ← dist_at sqrt inner_points outer_points car_point
        (normalizeIdx len (pos + 1))
      if dnext < pos_distance then
        let pos1 := pos + 1
        let d1 ← dist_at sqrt inner_points outer_points car_point
          (normalizeIdx len pos1)
        pos_walk sqrt inner_points outer_points car_point len fuel pos1 d1
      else
        return (pos, pos_distance)

/-- `find_closest_track_idx` (add_car_rankings.py 45-115).  The initial
`pos` read is unnormalized (line 81-83); the `neg` side takes at most one
step (lines 101-113); the equal-length assert is `none` on failure. -/
def find_closest_track_idx (sqrt : ℚ → ℚ) (fuel : ℕ)
    (inner_points outer_points : List Pt3) (previous_reference_idx : ℤ)
    (car_point : Pt3) : Option ℤ :=
  if inner_points.length = outer_points.length then do
    let len := inner_points.length
    let pos := previous_reference_idx
    let neg := previous_reference_idx - 1
    let pos_distance ← dist_at sqrt inner_points outer_points car_point pos
    let neg_distance ← dist_at sqrt inner_points outer_points car_point
      (normalizeIdx len neg)
    let walked ← pos_walk sqrt inner_points outer_points car_point len fuel
      pos pos_distance
    let dnn ← dist_at sqrt inner_points outer_points car_point
      (normalizeIdx len (neg - 1))
    let stepped ←
      if dnn < neg_distance then do
        let neg1 := neg - 1
        let d1 ← dist_at sqrt inner_points outer_points car_point
          (normalizeIdx len neg1)
        pure (neg1, d1)
      else pure (neg, neg_distance)
    return if walked.2 < stepped.2 then walked.1 else stepped.1
  else none

/-- `find_most_distant_closest_point` (add_car_rankings.py 118-142): the
per-car closest indices folded through `max` starting from
`cur_farthest_point_idx = 0` (line 135), then advanced by one modulo the
curve length. -/
def find_most_distant_closest_point (sqrt : ℚ → ℚ) (fuel : ℕ)
    (inner_points outer_points : List Pt3) (previous_reference_idx : ℤ)
    (car_points : List Pt3) : Option ℤ := do
  let closest_idxs ← car_points.mapM
    (find_closest_track_idx sqrt fuel inner_points outer_points
      previous_reference_idx)
  let cur_farthest_point_idx := closest_idxs.foldl (fun acc idx => max acc idx)
    (0 : ℤ)
  return (cur_farthest_point_idx + 1) % (inner_points.length : ℤ)

/-- `ranking_at_frame` (add_car_rankings.py 146-169): the new reference
index, each driver's distance to the new reference line, sorted ascending by
distance (Python `sorted` is stable; so is `List.mergeSort`). -/
def ranking_at_frame (sqrt : ℚ → ℚ) (fuel : ℕ)
    (inner_points outer_points : List Pt3) (previous_reference_idx : ℤ)
    (car_points : List Pt3) : Option (List (ℕ × ℚ) × ℤ) := do
  let new_reference_idx ← find_most_distant_closest_point sqrt fuel
    inner_points outer_points previous_reference_idx car_points
  let drivers ← (List.range car_points.length).mapM fun (driver_idx : ℕ) => do
    let car ← pyGet car_points (driver_idx : ℤ)
    let ip ← pyGet inner_points new_reference_idx
    let op ← pyGet outer_points new_reference_idx
    return ((driver_idx : ℕ), point_to_line_distance sqrt car ip op)
  return (drivers.mergeSort (fun a b => a.2 ≤ b.2), new_reference_idx)

/-- `n` calls of `ranking_at_frame` with the same inputs
(the caller in `main`, add_car_rankings.py 197-207, normally threads the new
reference index back; here the same `previous_reference_idx` is re-passed). -/
def ranking_at_frame_calls (sqrt : ℚ → ℚ) (fuel : ℕ)
    (inner_points outer_points : List Pt3) (previous_reference_idx : ℤ)
    (car_points : List Pt3) (n : ℕ) : List (Option (List (ℕ × ℚ) × ℤ)) :=
  (List.range n).map fun _ =>
    ranking_at_frame sqrt fuel inner_points outer_points
      previous_reference_idx car_points

/-- C6: `ranking_at_frame` is idempotent over repeated calls with the same
inputs: for equal-length inner/outer curves, any previous reference index and
any car list, every one of `n` repeated calls returns the same ordered
(driver, distance) list and the same new reference index. -/
theorem c6_ranking_at_frame_idempotent (sqrt : ℚ → ℚ) (fuel : ℕ)
    (inner_points outer_points : List Pt3) (previous_reference_idx : ℤ)
    (car_points : List Pt3)
    (h : inner_points.length = outer_points.length) (n : ℕ) :
    ∀ x ∈ ranking_at_frame_calls sqrt fuel inner_points outer_points
        previous_reference_idx car_points n,
      ∀ y ∈ ranking_at_frame_calls sqrt fuel inner_points outer_points
        previous_reference_idx car_points n, x = y := by
  intro x hx y hy
  obtain ⟨i, _, rfl⟩ := List.mem_map.mp hx
  obtain ⟨j, _, rfl⟩ := List.mem_map.mp hy
  rfl

/-- Witness for C6: two calls on a one-segment track agree. -/
theorem c6_ranking_at_frame_idempotent_witness :
    ranking_at_frame ratSqrt 10 [((0 : ℚ), 0, 0)] [((0 : ℚ), 12, 0)] 0
      [((1 : ℚ), 1, 0)] =
    ranking_at_frame ratSqrt 10 [((0 : ℚ), 0, 0)] [((0 : ℚ), 12, 0)] 0
      [((1 : ℚ), 1, 0)] := by
  refine c6_ranking_at_frame_idempotent ratSqrt 10 [((0 : ℚ), 0, 0)]
    [((0 : ℚ), 12, 0)] 0 [((1 : ℚ), 1, 0)] (by simp) 2 _ ?_ _ ?_
  · exact List.mem_map.mpr ⟨0, by simp, rfl⟩
  · exact List.mem_map.mpr ⟨1, by simp, rfl⟩

theorem foldl_max_init_le (l : List ℤ) : ∀ a : ℤ, a ≤ l.foldl max a := by
  induction l with
  | nil => intro a; exact le_refl a
  | cons b t ih =>
      intro a
      exact le_trans (le_max_left a b) (ih (max a b))

theorem le_foldl_max (l : List ℤ) : ∀ a : ℤ, ∀ i ∈ l, i ≤ l.foldl max a := by
  induction l with
  | nil => intro a i hi; cases hi
  | cons b t ih =>
      intro a i hi
      rcases List.mem_cons.mp hi with rfl | hmem
      · exact le_trans (le_max_right a i) (foldl_max_init_le t (max a i))
      · exact ih (max a b) i hmem

theorem foldl_max_mem (l : List ℤ) :
    ∀ a : ℤ, l.foldl max a = a ∨ l.foldl max a ∈ l := by
  induction l with
  | nil => intro a; exact Or.inl rfl
  | cons b t ih =>
      intro a
      rcases ih (max a b) with heq | hmem
      · rcases max_choice a b with hc | hc
        · exact Or.inl (by rw [List.foldl_cons, heq, hc])
        · refine Or.inr (List.mem_cons.mpr (Or.inl ?_))
          rw [List.foldl_cons, heq, hc]
      · exact Or.inr (List.mem_cons.mpr (Or.inr hmem))

/-- C5 (amended): the new reference index of
`find_most_distant_closest_point` is one past the maximum of **0 and** the
per-car closest track indices, modulo the curve length; the fold seeding at 0
means a negative closest index (reachable via the backward step from
reference index 0) is ignored. -/
theorem c5_new_reference_one_past_max_with_zero (sqrt : ℚ → ℚ) (fuel : ℕ)
    (inner_points outer_points : List Pt3) (previous_reference_idx : ℤ)
    (car_points : List Pt3) (idxs : List ℤ) (res : ℤ)
    (hm : car_points.mapM (find_closest_track_idx sqrt fuel inner_points
      outer_points previous_reference_idx) = some idxs)
    (hr : find_most_distant_closest_point sqrt fuel inner_points outer_points
      previous_reference_idx car_points = some res) :
    ∃ M : ℤ, 0 ≤ M ∧ (∀ i ∈ idxs, i ≤ M) ∧ (M = 0 ∨ M ∈ idxs) ∧
      res = (M + 1) % (inner_points.length : ℤ) := by
  refine ⟨idxs.foldl max 0, foldl_max_init_le idxs 0, le_foldl_max idxs 0,
    foldl_max_mem idxs 0, ?_⟩
  unfold find_most_distant_closest_point at hr
  rw [hm] at hr
  simp at hr
  exact hr.symm

/-- C5 counterexample track, inner rail: four vertical segments at
x = 5, 6, 7, 1. -/
def c5inner : List Pt3 := [(5, 0, 0), (6, 0, 0), (7, 0, 0), (1, 0, 0)]

/-- C5 counterexample track, outer rail. -/
def c5outer : List Pt3 := [(5, 10, 0), (6, 10, 0), (7, 10, 0), (1, 10, 0)]

/-- C5 counterexample car position: distance to segment `i` is 5, 6, 7, 1. -/
def c5car : Pt3 := (0, 5, 0)

theorem c5_point_eval :
    point_to_line_distance ratSqrt c5car ((5 : ℚ), 0, 0) ((5 : ℚ), 10, 0) = 5 ∧
    point_to_line_distance ratSqrt c5car ((6 : ℚ), 0, 0) ((6 : ℚ), 10, 0) = 6 ∧
    point_to_line_distance ratSqrt c5car ((7 : ℚ), 0, 0) ((7 : ℚ), 10, 0) = 7 ∧
    point_to_line_distance ratSqrt c5car ((1 : ℚ), 0, 0) ((1 : ℚ), 10, 0) = 1 := by
  have h100 := ratSqrt_sq 10 (by norm_num)
  have h25 := ratSqrt_sq 5 (by norm_num)
  have h36 := ratSqrt_sq 6 (by norm_num)
  have h49 := ratSqrt_sq 7 (by norm_num)
  have h1 := ratSqrt_sq 1 (by norm_num)
  norm_num at h100 h25 h36 h49 h1
  refine ⟨?_, ?_, ?_, ?_⟩ <;>
    norm_num [point_to_line_distance, sub3, dot3, smul3, add3, c5car, h100,
      h25, h36, h49, h1]

theorem c5_dist_eval :
    dist_at ratSqrt c5inner c5outer c5car 0 = some 5 ∧
    dist_at ratSqrt c5inner c5outer c5car 1 = some 6 ∧
    dist_at ratSqrt c5inner c5outer c5car 2 = some 7 ∧
    dist_at ratSqrt c5inner c5outer c5car 3 = some 1 := by
  obtain ⟨q0, q1, q2, q3⟩ := c5_point_eval
  refine ⟨?_, ?_, ?_, ?_⟩
  · rw [dist_at, show pyGet c5inner (0 : ℤ) = some ((5 : ℚ), 0, 0) from rfl,
      show pyGet c5outer (0 : ℤ) = some ((5 : ℚ), 10, 0) from rfl]
    exact congrArg some q0
  · rw [dist_at, show pyGet c5inner (1 : ℤ) = some ((6 : ℚ), 0, 0) from rfl,
      show pyGet c5outer (1 : ℤ) = some ((6 : ℚ), 10, 0) from rfl]
    exact congrArg some q1
  · rw [dist_at, show pyGet c5inner (2 : ℤ) = some ((7 : ℚ), 0, 0) from rfl,
      show pyGet c5outer (2 : ℤ) = some ((7 : ℚ), 10, 0) from rfl]
    exact congrArg some q2
  · rw [dist_at, show pyGet c5inner (3 : ℤ) = some ((1 : ℚ), 0, 0) from rfl,
      show pyGet c5outer (3 : ℤ) = some ((1 : ℚ), 10, 0) from rfl]
    exact congrArg some q3

theorem c5_closest_eval :
    find_closest_track_idx ratSqrt 4 c5inner c5outer 0 c5car = some (-1) := by
  obtain ⟨e0, e1, e2, e3⟩ := c5_dist_eval
  have hlen : c5inner.length = 4 := by simp [c5inner]
  have hn1 : normalizeIdx 4 ((0 : ℤ) - 1) = 3 := by decide
  have hn2 : normalizeIdx 4 ((0 : ℤ) - 1 - 1) = 2 := by decide
  have hp1 : normalizeIdx 4 ((0 : ℤ) + 1) = 1 := by decide
  rw [find_closest_track_idx]
  rw [if_pos (by simp [c5inner, c5outer])]
  simp only [hlen, hn1, hn2, hp1, e0, e1, e2, e3, pos_walk, Option.bind_some,
    Option.some_bind, Option.bind_eq_bind]
  norm_num

theorem c5_eval_facts :
    List.mapM (find_closest_track_idx ratSqrt 4 c5inner c5outer 0) [c5car] =
      some [-1] ∧
    find_most_distant_closest_point ratSqrt 4 c5inner c5outer 0 [c5car] =
      some 1 := by
  have hm : List.mapM (find_closest_track_idx ratSqrt 4 c5inner c5outer 0)
      [c5car] = some [-1] := by
    simp only [List.mapM_cons, List.mapM_nil, c5_closest_eval,
      Option.some_bind, Option.bind_eq_bind, Option.pure_def]
  refine ⟨hm, ?_⟩
  rw [find_most_distant_closest_point]
  rw [hm]
  simp [c5inner]

/-- C5 counterexample: with previous reference index 0 and a single car
closest to the last segment, the backward step wins and the car's closest
track index is -1; the claim then says the new reference index is
(-1 + 1) % 4 = 0, but the code seeds its running maximum with 0 (line 135)
and returns (0 + 1) % 4 = 1. -/
theorem c5_counterexample_negative_index_ignored :
    List.mapM (find_closest_track_idx ratSqrt 4 c5inner c5outer 0) [c5car] =
      some [-1] ∧
    find_most_distant_closest_point ratSqrt 4 c5inner c5outer 0 [c5car] =
      some 1 ∧
    ((-1 : ℤ) + 1) % ((4 : ℕ) : ℤ) = 0 ∧ (1 : ℤ) ≠ 0 :=
  ⟨c5_eval_facts.1, c5_eval_facts.2, by decide, by decide⟩

/-- Witness for the amended C5 at the counterexample input: the maximum of 0
and the closest indices [-1] is M = 0, and the returned reference index is
(0 + 1) % 4 = 1. -/
theorem c5_new_reference_one_past_max_with_zero_witness :
    ∃ M : ℤ, 0 ≤ M ∧ (∀ i ∈ ([-1] : List ℤ), i ≤ M) ∧
      (M = 0 ∨ M ∈ ([-1] : List ℤ)) ∧
      (1 : ℤ) = (M + 1) % (c5inner.length : ℤ) :=
  c5_new_reference_one_past_max_with_zero ratSqrt 4 c5inner c5outer 0 [c5car]
    [-1] 1 c5_eval_facts.1 c5_eval_facts.2

/-! ## Right-boundary derivation of smooth_points (load_track_data.py 221-269) -/

/-- `track_width = 12` (load_track_data.py 223). -/
def track_width : ℚ := 12

/-- The side choice by distance (load_track_data.py 247-254 and 262-269):
candidate `a` if it is strictly nearer the reference point, else `b`. -/
def choose_closer (sqrt : ℚ → ℚ) (ref a b : Pt2) : Pt2 :=
  let a_distance := sqrt ((ref.1 - a.1) ^ 2 + (ref.2 - a.2) ^ 2)
  let b_distance := sqrt ((ref.1 - b.1) ^ 2 + (ref.2 - b.2) ^ 2)
  if a_distance < b_distance then a else b

/-- The two perpendicular projection candidates at index `i` of the smoothed
left curve (load_track_data.py 224-241): `a = cur - perp * track_width`,
`b = cur + perp * track_width` with `perp = (unit_y, -unit_x)` of the
direction to the next point (the previous point at the last index). -/
def side_candidates (sqrt : ℚ → ℚ) (lefts : List Pt2) (i : ℕ) : Pt2 × Pt2 :=
  let next_idx := if i + 1 < lefts.length then i + 1 else i - 1
  let cur := lefts.getD i (0, 0)
  let next := lefts.getD next_idx (0, 0)
  let vec := (next.1 - cur.1, next.2 - cur.2)
  let mag := sqrt (vec.1 ^ 2 + vec.2 ^ 2)
  let unit := (vec.1 / mag, vec.2 / mag)
  let perp := (unit.2, -unit.1)
  ((cur.1 - perp.1 * track_width, cur.2 - perp.2 * track_width),
   (cur.1 + perp.1 * track_width, cur.2 + perp.2 * track_width))

/-- The `for i in range(len(lefts_x))` loop building the right boundary
(load_track_data.py 224-269): at `i = 0` the side nearest `lefts[0]` is
chosen (lines 243-254); at the last index the first right point is repeated
(lines 255-257); otherwise the side nearest the previously appended right
point is chosen (lines 258-269). -/
def derive_rights_go (sqrt : ℚ → ℚ) (lefts : List Pt2) :
    ℕ → ℕ → List Pt2 → List Pt2
  | 0, _, acc => acc
  | n + 1, i, acc =>
      let cand := side_candidates sqrt lefts i
      let chosen :=
        if i = 0 then choose_closer sqrt (lefts.getD 0 (0, 0)) cand.1 cand.2
        else if i = lefts.length - 1 then acc.getD 0 (0, 0)
        else choose_closer sqrt (acc.getLastD (0, 0)) cand.1 cand.2
      derive_rights_go sqrt lefts n (i + 1) (acc ++ [chosen])

/-- The right boundary derived from the smoothed left curve
(load_track_data.py 221-269). -/
def derive_rights (sqrt : ℚ → ℚ) (lefts : List Pt2) : List Pt2 :=
  derive_rights_go sqrt lefts lefts.length 0 []

/-- The per-index recurrence the code actually implements: the positive
perpendicular side at index 0 (both candidates are equidistant from
`lefts[0]`, and the strict `<` comparison then picks `b`), the side nearest
the previous right point in the interior, and a copy of the first right
point at the last index. -/
def rightsRec (sqrt : ℚ → ℚ) (lefts : List Pt2) : ℕ → Pt2
  | 0 => (side_candidates sqrt lefts 0).2
  | i + 1 =>
      if i + 1 = lefts.length - 1 then rightsRec sqrt lefts 0
      else
        choose_closer sqrt (rightsRec sqrt lefts i)
          (side_candidates sqrt lefts (i + 1)).1
          (side_candidates sqrt lefts (i + 1)).2

/-- The first-point rule as the claim states it: the side nearest the
original `right[0]` boundary sample. -/
def claimed_first_right (sqrt : ℚ → ℚ) (lefts : List Pt2)
    (orig_right0 : Pt2) : Pt2 :=
  choose_closer sqrt orig_right0 (side_candidates sqrt lefts 0).1
    (side_candidates sqrt lefts 0).2

/-- At index 0 both candidates are exactly `track_width / |unit|` from
`lefts[0]`, so the strict comparison fails and side `b` is chosen, for every
square-root function. -/
theorem choose_first_is_b (sqrt : ℚ → ℚ) (lefts : List Pt2) :
    choose_closer sqrt (lefts.getD 0 (0, 0)) (side_candidates sqrt lefts 0).1
      (side_candidates sqrt lefts 0).2 = (side_candidates sqrt lefts 0).2 := by
  unfold choose_closer side_candidates
  dsimp only
  split
  · split
    · rename_i hlt
      exfalso
      ring_nf at hlt
      exact absurd hlt (lt_irrefl _)
    · rfl
  · split
    · rename_i hlt
      exfalso
      ring_nf at hlt
      exact absurd hlt (lt_irrefl _)
    · rfl

theorem map_range_getLastD (f : ℕ → Pt2) (i : ℕ) (h : 1 ≤ i) (d : Pt2) :
    (((List.range i).map f).getLastD d) = f (i - 1) := by
  obtain ⟨k, rfl⟩ : ∃ k, i = k + 1 := ⟨i - 1, by omega⟩
  rw [List.range_succ, List.map_append]
  simp

theorem map_range_getD_zero (f : ℕ → Pt2) (i : ℕ) (h : 1 ≤ i) (d : Pt2) :
    (((List.range i).map f).getD 0 d) = f 0 := by
  obtain ⟨k, rfl⟩ : ∃ k, i = k + 1 := ⟨i - 1, by omega⟩
  rw [List.range_succ_eq_map]
  simp

theorem derive_rights_go_spec (sqrt : ℚ → ℚ) (lefts : List Pt2) :
    ∀ (n i : ℕ) (acc : List Pt2), i + n = lefts.length →
      acc = (List.range i).map (rightsRec sqrt lefts) →
      derive_rights_go sqrt lefts n i acc =
        (List.range lefts.length).map (rightsRec sqrt lefts) := by
  intro n
  induction n with
  | zero =>
      intro i acc hi hacc
      rw [derive_rights_go, hacc]
      have : i = lefts.length := by omega
      rw [this]
  | succ n ih =>
      intro i acc hi hacc
      rw [derive_rights_go]
      have hchosen :
          (if i = 0 then
            choose_closer sqrt (lefts.getD 0 (0, 0))
              (side_candidates sqrt lefts i).1 (side_candidates sqrt lefts i).2
          else if i = lefts.length - 1 then acc.getD 0 (0, 0)
          else choose_closer sqrt (acc.getLastD (0, 0))
            (side_candidates sqrt lefts i).1
            (side_candidates sqrt lefts i).2) = rightsRec sqrt lefts i := by
        by_cases h0 : i = 0
        · subst h0
          rw [if_pos rfl]
          rw [choose_first_is_b]
          conv_rhs => rw [rightsRec]
        · obtain ⟨k, rfl⟩ : ∃ k, i = k + 1 := ⟨i - 1, by omega⟩
          rw [if_neg h0]
          by_cases hlast : k + 1 = lefts.length - 1
          · rw [if_pos hlast, hacc,
              map_range_getD_zero _ _ (by omega) _]
            conv_rhs => rw [rightsRec]
            rw [if_pos hlast]
          · rw [if_neg hlast, hacc,
              map_range_getLastD _ _ (by omega) _]
            conv_rhs => rw [rightsRec]
            rw [if_neg hlast]
            simp
      rw [hchosen]
      apply ih (i + 1) _ (by omega)
      rw [hacc, List.range_succ, List.map_append]
      rfl

/-- C8 (amended): for curves of at least two points, the derived right
boundary satisfies, at every index, the recurrence `rightsRec`: side `b`
(positive perpendicular) at index 0 — the code compares to the smoothed
`lefts[0]`, from which both candidates are equidistant, not to the original
`right[0]` sample, which was discarded at line 221 — the side nearest the
previous right point at interior indices, and a copy of the first right point
at the last index. -/
theorem c8_rights_follow_code_recurrence (sqrt : ℚ → ℚ) (lefts : List Pt2)
    (h2 : 2 ≤ lefts.length) :
    derive_rights sqrt lefts =
      (List.range lefts.length).map (rightsRec sqrt lefts) := by
  unfold derive_rights
  exact derive_rights_go_spec sqrt lefts lefts.length 0 [] (by omega) rfl

/-- C8 counterexample input: a straight smoothed left curve along the x-axis. -/
def c8lefts : List Pt2 := [(0, 0), (1, 0), (2, 0), (3, 0)]

/-- Witness for the amended C8 at the concrete four-point left curve. -/
theorem c8_rights_follow_code_recurrence_witness :
    2 ≤ c8lefts.length ∧
    derive_rights ratSqrt c8lefts =
      (List.range c8lefts.length).map (rightsRec ratSqrt c8lefts) :=
  ⟨by norm_num [c8lefts],
    c8_rights_follow_code_recurrence ratSqrt c8lefts (by norm_num [c8lefts])⟩

/-- C8 counterexample: with the original `right[0]` sample at `(0, 11)`, the
claim's rule picks the side `(0, 12)` nearest it, but the code's first right
point is `(0, -12)`: the code compares to the smoothed `lefts[0]` (a tie,
resolved to the positive perpendicular side), never to the original
`right[0]`. -/
theorem c8_counterexample_first_point_rule :
    (derive_rights ratSqrt c8lefts).getD 0 (0, 0) = ((0 : ℚ), (-12 : ℚ)) ∧
    claimed_first_right ratSqrt c8lefts ((0 : ℚ), (11 : ℚ)) =
      ((0 : ℚ), (12 : ℚ)) ∧
    (((0 : ℚ), (-12 : ℚ)) : Pt2) ≠ (((0 : ℚ), (12 : ℚ)) : Pt2) := by
  have h1 := ratSqrt_sq 1 (by norm_num)
  have h23 := ratSqrt_sq 23 (by norm_num)
  norm_num at h1 h23
  refine ⟨?_, ?_, by norm_num⟩
  · rw [derive_rights,
      derive_rights_go_spec ratSqrt c8lefts c8lefts.length 0 [] (by omega) rfl]
    rw [map_range_getD_zero _ _ (by norm_num [c8lefts]) _]
    rw [rightsRec]
    norm_num [side_candidates, c8lefts, track_width, h1]
  · unfold claimed_first_right
    have hb : side_candidates ratSqrt c8lefts 0 =
        (((0 : ℚ), (12 : ℚ)), ((0 : ℚ), (-12 : ℚ))) := by
      norm_num [side_candidates, c8lefts, track_width, h1]
    rw [hb]
    unfold choose_closer
    norm_num [h1, h23]

/-! ## linearly_interpolate_z_vals (load_track_data.py 79-159)

Array reads and writes are checked (`none` = Python IndexError); the
`while` loops are structurally recursive on their decreasing indices, with
the loop bound of the main interpolation loop captured as `size0` exactly as
Python's unchanging `len(new_z_vals)`. -/

/-- Checked array read: `a[i]` with IndexError as `none`. -/
def aread (a : Array ℚ) (i : ℕ) : Option ℚ := a[i]?

/-- Checked array write: `a[i] = v` with IndexError as `none`. -/
def awrite (a : Array ℚ) (i : ℕ) (v : ℚ) : Option (Array ℚ) :=
  if h : i < a.size then some (a.set ⟨i, h⟩ v) else none

/-- The placement loop (load_track_data.py 107-108):
`new_z_vals[int(i * stretch_val)] = z_val` for each original value, where
`int(i * stretch_val) = i * num_new_points / len(z_vals)` exactly. -/
def placeVals (num len : ℕ) : List ℚ → ℕ → Array ℚ → Option (Array ℚ)
  | [], _, a => some a
  | z :: rest, i, a => do
      let a1 ← awrite a (i * num / len) z
      placeVals num len rest (i + 1) a1

/-- The nonzero scans (load_track_data.py 114-116 and 141-143):
`while new_z_vals[i] == 0: i += 1` — unguarded, so an all-zero array runs
past the end (IndexError, `none`). -/
def scanNonzero (a : Array ℚ) (i : ℕ) : Option ℕ :=
  if h : i < a.size then
    if a.get ⟨i, h⟩ = 0 then scanNonzero a (i + 1) else some i
  else none
termination_by a.size - i
decreasing_by omega

/-- The inner fill (load_track_data.py 132-133):
`for k in range(i + 1, j): new_z_vals[k] = new_z_vals[k - 1] + step`. -/
def fillRange (step : ℚ) : ℕ → ℕ → Array ℚ → Option (Array ℚ)
  | k, j, a =>
      if k < j then do
        let prev ← aread a (k - 1)
        let a1 ← awrite a k (prev + step)
        fillRange step (k + 1) j a1
      else some a
termination_by k j _ => j - k
decreasing_by omega

/-- The main interpolation loop (load_track_data.py 118-137): advance `j`
past zeros; at each nonzero `j`, fill linearly between `i` and `j`, then set
`i = j`.  Returns the array and the final `i` (the last nonzero index). -/
def interpLoop (size0 : ℕ) : Array ℚ → ℕ → ℕ → Option (Array ℚ × ℕ)
  | a, i, j =>
      if j < size0 then do
        let vj ← aread a j
        if vj = 0 then interpLoop size0 a i (j + 1)
        else do
          let aj ← aread a j
          let ai ← aread a i
          let num_spaces := j - i - 1
          let step := (aj - ai) / ((num_spaces : ℚ) + 1)
          let a1 ← fillRange step (i + 1) j a
          interpLoop size0 a1 j (j + 1)
      else some (a, i)
termination_by _ _ j => size0 - j
decreasing_by
  · omega
  · omega

/-- The wrap-around fill (load_track_data.py 151-157): `num_spaces` writes at
`(i + n) % len` from `(i + n - 1) % len`. -/
def wrapFill (step : ℚ) (i num_spaces : ℕ) : ℕ → Array ℚ → Option (Array ℚ)
  | n, a =>
      if n ≤ num_spaces then do
        let below ← aread a ((i + n - 1) % a.size)
        let a1 ← awrite a ((i + n) % a.size) (below + step)
        wrapFill step i num_spaces (n + 1) a1
      else some a
termination_by n _ => num_spaces + 1 - n
decreasing_by omega

/-- `linearly_interpolate_z_vals` (load_track_data.py 79-159).  An empty
input is `none` (Python divides by `len(z_vals)` computing `stretch_val`,
line 104). -/
def linearly_interpolate_z_vals (z_vals : List ℚ) (num_new_points : ℕ) :
    Option (Array ℚ) :=
  if z_vals.length = 0 then none
  else do
    let a1 ← placeVals num_new_points z_vals.length z_vals 0
      (Array.mkArray num_new_points 0)
    let i0 ← scanNonzero a1 0
    let r ← interpLoop a1.size a1 i0 (i0 + 1)
    let j0 ← scanNonzero r.1 0
    let num_spaces := r.1.size - r.2 - 1 + j0
    let vj ← aread r.1 j0
    let vi ← aread r.1 r.2
    let step := (vj - vi) / ((num_spaces : ℚ) + 1)
    wrapFill step r.2 num_spaces 1 r.1

theorem awrite_spec (a : Array ℚ) (i : ℕ) (v : ℚ) (h : i < a.size) :
    ∃ a1, awrite a i v = some a1 ∧ a1.size = a.size ∧
      a1[i]? = some v ∧ ∀ p, p ≠ i → a1[p]? = a[p]? := by
  refine ⟨a.set ⟨i, h⟩ v, by simp [awrite, h], by simp, ?_, ?_⟩
  · simpa using Array.get?_set_eq a ⟨i, h⟩ v
  · intro p hp
    simpa using Array.get?_set_ne a ⟨i, h⟩ v (Ne.symm hp)

theorem place_pos_lt (num len i : ℕ) (hi : i < len) (hnum : 0 < num) :
    i * num / len < num := by
  rw [Nat.div_lt_iff_lt_mul (by omega : 0 < len)]
  calc i * num < len * num := Nat.mul_lt_mul_of_pos_right hi hnum
    _ = num * len := Nat.mul_comm _ _

theorem place_pos_strict_mono (num len i : ℕ) (hle : len ≤ num)
    (hlen : 0 < len) : i * num / len < (i + 1) * num / len := by
  have h1 : (i * num + len) / len = i * num / len + 1 :=
    Nat.add_div_right _ hlen
  have h2 : i * num + len ≤ (i + 1) * num := by
    rw [Nat.succ_mul]
    omega
  have h3 := Nat.div_le_div_right (c := len) h2
  omega

theorem placeVals_spec (num len : ℕ) (hlen : 0 < len) (hnum : len ≤ num) :
    ∀ (l : List ℚ) (i : ℕ) (a : Array ℚ), a.size = num → i + l.length ≤ len →
      ∃ a1, placeVals num len l i a = some a1 ∧ a1.size = num ∧
        (∀ t (ht : t < l.length),
          a1[(i + t) * num / len]? = some (l.get ⟨t, ht⟩)) ∧
        (∀ p, p < i * num / len → a1[p]? = a[p]?) := by
  intro l
  induction l with
  | nil =>
      intro i a ha _
      exact ⟨a, rfl, ha, fun t ht => absurd ht (Nat.not_lt_zero t),
        fun p _ => rfl⟩
  | cons z rest ih =>
      intro i a ha hbound
      have hi : i < len := by
        simp only [List.length_cons] at hbound
        omega
      have hpos : i * num / len < a.size := by
        rw [ha]
        exact place_pos_lt num len i hi (by omega)
      obtain ⟨aw, hw, hwsize, hwval, hwother⟩ := awrite_spec a _ z hpos
      obtain ⟨a1, h1, h1size, h1val, h1pres⟩ := ih (i + 1) aw
        (by rw [hwsize, ha])
        (by simp only [List.length_cons] at hbound; omega)
      have hmono := place_pos_strict_mono num len i hnum hlen
      refine ⟨a1, ?_, h1size, ?_, ?_⟩
      · rw [placeVals, hw]
        simpa using h1
      · intro t ht
        cases t with
        | zero =>
            rw [Nat.add_zero]
            rw [h1pres (i * num / len) hmono, hwval]
            rfl
        | succ u =>
            have hu : u < rest.length := by
              simp only [List.length_cons] at ht
              omega
            have := h1val u hu
            have harith : (i + 1 + u) = (i + (u + 1)) := by omega
            rw [harith] at this
            rw [this]
            rfl
      · intro p hp
        rw [h1pres p (by omega), hwother p (by omega)]

theorem placeVals_zeros (num len : ℕ) :
    ∀ (l : List ℚ) (i : ℕ) (a a1 : Array ℚ),
      placeVals num len l i a = some a1 →
      (∀ z ∈ l, z = 0) → (∀ p, p < a.size → a[p]? = some 0) →
      ∀ p, p < a1.size → a1[p]? = some 0 := by
  intro l
  induction l with
  | nil =>
      intro i a a1 h _ hz
      rw [placeVals] at h
      cases h
      exact hz
  | cons z rest ih =>
      intro i a a1 h hl hz
      rw [placeVals] at h
      cases haw : awrite a (i * num / len) z with
      | none => rw [haw] at h; cases h
      | some aw =>
          rw [haw] at h
          simp only [Option.bind_eq_bind, Option.some_bind] at h
          have hzz : z = 0 := hl z (List.mem_cons_self z rest)
          have hwpos : i * num / len < a.size := by
            by_contra hc
            rw [awrite, dif_neg hc] at haw
            cases haw
          obtain ⟨aw2, hw2, hwsize, hwval, hwother⟩ :=
            awrite_spec a (i * num / len) z hwpos
          rw [hw2] at haw
          cases haw
          refine ih (i + 1) aw a1 h (fun w hw => hl w (List.mem_cons_of_mem z hw)) ?_
          intro p hp
          by_cases hpe : p = i * num / len
          · rw [hpe, hwval, hzz]
          · rw [hwother p hpe]
            exact hz p (by rw [← hwsize]; exact hp)

theorem scanNonzero_finds (a : Array ℚ) (p : ℕ) (hp : p < a.size)
    (hv : a.get ⟨p, hp⟩ ≠ 0) :
    ∀ d i, p - i = d → i ≤ p →
      ∃ i0, ∃ h0 : i0 < a.size, scanNonzero a i = some i0 ∧ i ≤ i0 ∧ i0 ≤ p ∧
        a.get ⟨i0, h0⟩ ≠ 0 := by
  intro d
  induction d with
  | zero =>
      intro i hd hip
      have hipe : i = p := by omega
      subst hipe
      refine ⟨i, hp, ?_, le_refl i, le_refl i, hv⟩
      rw [scanNonzero, dif_pos hp, if_neg hv]
  | succ d ih =>
      intro i hd hip
      have hisz : i < a.size := by omega
      by_cases hz : a.get ⟨i, hisz⟩ = 0
      · have hip2 : i < p := by
          by_contra hc
          have hie : i = p := by omega
          subst hie
          exact hv hz
        obtain ⟨i0, h0, hscan, hle, hle2, hnz⟩ := ih (i + 1) (by omega)
          (by omega)
        refine ⟨i0, h0, ?_, by omega, hle2, hnz⟩
        rw [scanNonzero, dif_pos hisz, if_pos hz]
        exact hscan
      · exact ⟨i, hisz, by rw [scanNonzero, dif_pos hisz, if_neg hz],
          le_refl i, hip, hz⟩

theorem scanNonzero_none (a : Array ℚ)
    (hall : ∀ (q : ℕ) (hq : q < a.size), a.get ⟨q, hq⟩ = 0) :
    ∀ d i, a.size - i = d → scanNonzero a i = none := by
  intro d
  induction d with
  | zero =>
      intro i hd
      rw [scanNonzero, dif_neg (by omega)]
  | succ d ih =>
      intro i hd
      have hi : i < a.size := by omega
      rw [scanNonzero, dif_pos hi, if_pos (hall i hi)]
      exact ih (i + 1) (by omega)

theorem fillRange_spec (step : ℚ) :
    ∀ (d k j : ℕ) (a : Array ℚ), j - k = d → 1 ≤ k → j ≤ a.size →
      ∃ a1, fillRange step k j a = some a1 ∧ a1.size = a.size ∧
        ∀ p, (p < k ∨ j ≤ p) → a1[p]? = a[p]? := by
  intro d
  induction d with
  | zero =>
      intro k j a hd hk hj
      rw [fillRange, if_neg (by omega)]
      exact ⟨a, rfl, rfl, fun p _ => rfl⟩
  | succ d ih =>
      intro k j a hd hk hj
      have hkj : k < j := by omega
      rw [fillRange, if_pos hkj]
      have hread : k - 1 < a.size := by omega
      have haread : aread a (k - 1) = some (a.get ⟨k - 1, hread⟩) :=
        Array.getElem?_eq_getElem hread
      rw [haread]
      simp only [Option.bind_eq_bind, Option.some_bind]
      have hwpos : k < a.size := by omega
      obtain ⟨aw, hw, hwsize, hwval, hwother⟩ := awrite_spec a k _ hwpos
      rw [hw]
      simp only [Option.some_bind]
      obtain ⟨a1, h1, h1size, h1pres⟩ := ih (k + 1) j aw (by omega)
        (by omega) (by omega)
      refine ⟨a1, h1, by rw [h1size, hwsize], ?_⟩
      intro p hp
      rw [h1pres p (by omega), hwother p (by omega)]

theorem interpLoop_spec (size0 : ℕ) :
    ∀ (d : ℕ) (a : Array ℚ) (i j : ℕ), size0 - j = d → a.size = size0 →
      i < j → i < size0 →
      ∃ a2 i2, interpLoop size0 a i j = some (a2, i2) ∧ a2.size = size0 ∧
        i ≤ i2 ∧ i2 < size0 ∧ ∀ p, p ≤ i → a2[p]? = a[p]? := by
  intro d
  induction d with
  | zero =>
      intro a i j hd ha hij hi
      rw [interpLoop, if_neg (by omega)]
      exact ⟨a, i, rfl, ha, le_refl i, hi, fun p _ => rfl⟩
  | succ d ih =>
      intro a i j hd ha hij hi
      have hj : j < size0 := by omega
      rw [interpLoop, if_pos hj]
      have hjsz : j < a.size := by omega
      have hjread : aread a j = some (a.get ⟨j, hjsz⟩) :=
        Array.getElem?_eq_getElem hjsz
      rw [hjread]
      simp only [Option.bind_eq_bind, Option.some_bind]
      by_cases hz : a.get ⟨j, hjsz⟩ = 0
      · rw [if_pos hz]
        exact ih a i (j + 1) (by omega) ha (by omega) hi
      · rw [if_neg hz]
        have hisz : i < a.size := by omega
        have hiread : aread a i = some (a.get ⟨i, hisz⟩) :=
          Array.getElem?_eq_getElem hisz
        rw [hiread]
        simp only [Option.some_bind]
        obtain ⟨a1, hfill, hfsize, hfpres⟩ := fillRange_spec _ (j - (i + 1))
          (i + 1) j a rfl (by omega) (by omega)
        rw [hfill]
        simp only [Option.some_bind]
        obtain ⟨a2, i2, hrec, h2size, hele, h2lt, h2pres⟩ := ih a1 j (j + 1)
          (by omega) (by rw [hfsize, ha]) (by omega) hj
        refine ⟨a2, i2, hrec, h2size, by omega, h2lt, ?_⟩
        intro p hp
        rw [h2pres p (by omega), hfpres p (Or.inl (by omega))]

theorem wrapFill_spec (step : ℚ) (i num_spaces : ℕ) :
    ∀ (d n : ℕ) (a : Array ℚ), num_spaces + 1 - n = d → 0 < a.size →
      ∃ a1, wrapFill step i num_spaces n a = some a1 ∧ a1.size = a.size := by
  intro d
  induction d with
  | zero =>
      intro n a hd hsz
      rw [wrapFill, if_neg (by omega)]
      exact ⟨a, rfl, rfl⟩
  | succ d ih =>
      intro n a hd hsz
      have hn : n ≤ num_spaces := by omega
      rw [wrapFill, if_pos hn]
      have hbel : (i + n - 1) % a.size < a.size := Nat.mod_lt _ hsz
      have hread : aread a ((i + n - 1) % a.size) =
          some (a.get ⟨(i + n - 1) % a.size, hbel⟩) :=
        Array.getElem?_eq_getElem hbel
      rw [hread]
      simp only [Option.bind_eq_bind, Option.some_bind]
      have hwp : (i + n) % a.size < a.size := Nat.mod_lt _ hsz
      obtain ⟨aw, hw, hwsize, hwv, hwo⟩ := awrite_spec a _ _ hwp
      rw [hw]
      simp only [Option.some_bind]
      obtain ⟨a1, h1, h1size⟩ := ih (n + 1) aw (by omega)
        (by rw [hwsize]; exact hsz)
      exact ⟨a1, h1, by rw [h1size, hwsize]⟩

/-- C9: given `num_new_points ≥ len(z_vals)` and at least one nonzero input
value, `linearly_interpolate_z_vals` performs only in-bounds accesses and
returns an array of exactly `num_new_points` elements; and the nonzero
precondition is necessary: on a nonempty all-zero input the unguarded scan
for the first nonzero entry runs past the end of the array (IndexError,
modelled as `none`). -/
theorem c9_linearly_interpolate_safe_iff_nonzero (z_vals : List ℚ)
    (num : ℕ) :
    (z_vals.length ≤ num → (∃ z ∈ z_vals, z ≠ 0) →
      ∃ a, linearly_interpolate_z_vals z_vals num = some a ∧ a.size = num) ∧
    (z_vals ≠ [] → z_vals.length ≤ num → (∀ z ∈ z_vals, z = 0) →
      linearly_interpolate_z_vals z_vals num = none) := by
  constructor
  · rintro hle ⟨z, hz, hznz⟩
    have hlen : 0 < z_vals.length := List.length_pos.mpr (by rintro rfl; cases hz)
    have hnum : 0 < num := by omega
    rw [linearly_interpolate_z_vals, if_neg (by omega)]
    obtain ⟨a1, hplace, h1size, h1val, _⟩ := placeVals_spec num z_vals.length
      hlen hle z_vals 0 (Array.mkArray num 0) (by simp) (by omega)
    rw [hplace]
    simp only [Option.bind_eq_bind, Option.some_bind]
    obtain ⟨t, htz⟩ := List.mem_iff_get.mp hz
    have hp0lt : (0 + t.val) * num / z_vals.length < num :=
      place_pos_lt num z_vals.length (0 + t.val)
        (by have := t.isLt; omega) hnum
    have hp0sz : (0 + t.val) * num / z_vals.length < a1.size := by
      rw [h1size]
      exact hp0lt
    have hval : a1[(0 + t.val) * num / z_vals.length]? = some z := by
      rw [h1val t.val t.isLt, htz]
    have hgetnz : a1.get ⟨(0 + t.val) * num / z_vals.length, hp0sz⟩ ≠ 0 := by
      have he := Array.getElem?_eq_getElem hp0sz
      rw [he] at hval
      have hge : a1.get ⟨(0 + t.val) * num / z_vals.length, hp0sz⟩ = z :=
        Option.some.inj hval
      rw [hge]
      exact hznz
    obtain ⟨i0, h0sz, hscan, _, _, h0nz⟩ := scanNonzero_finds a1 _ hp0sz
      hgetnz _ 0 rfl (Nat.zero_le _)
    rw [hscan]
    simp only [Option.some_bind]
    obtain ⟨a2, i2, hinterp, h2size, hi0le, hi2lt, h2pres⟩ :=
      interpLoop_spec a1.size (a1.size - (i0 + 1)) a1 i0 (i0 + 1) rfl rfl
        (by omega) h0sz
    rw [hinterp]
    simp only [Option.some_bind]
    have hi0a2 : i0 < a2.size := by omega
    have h2get : a2.get ⟨i0, hi0a2⟩ ≠ 0 := by
      have hpres := h2pres i0 (le_refl i0)
      have e1 := Array.getElem?_eq_getElem hi0a2
      have e2 := Array.getElem?_eq_getElem h0sz
      rw [e1, e2] at hpres
      have hgg : a2.get ⟨i0, hi0a2⟩ = a1.get ⟨i0, h0sz⟩ :=
        Option.some.inj hpres
      rw [hgg]
      exact h0nz
    obtain ⟨j0, hj0sz, hscan2, _, _, _⟩ := scanNonzero_finds a2 i0 hi0a2
      h2get i0 0 rfl (by omega)
    rw [hscan2]
    simp only [Option.some_bind]
    have hrj : aread a2 j0 = some (a2.get ⟨j0, hj0sz⟩) :=
      Array.getElem?_eq_getElem hj0sz
    have hi2a2 : i2 < a2.size := by omega
    have hri : aread a2 i2 = some (a2.get ⟨i2, hi2a2⟩) :=
      Array.getElem?_eq_getElem hi2a2
    rw [hrj]
    simp only [Option.some_bind]
    rw [hri]
    simp only [Option.some_bind]
    obtain ⟨a3, hwrap, h3size⟩ := wrapFill_spec
      ((a2.get ⟨j0, hj0sz⟩ - a2.get ⟨i2, hi2a2⟩) /
        ((↑(a2.size - i2 - 1 + j0) : ℚ) + 1))
      i2 (a2.size - i2 - 1 + j0) (a2.size - i2 - 1 + j0) 1 a2 (by omega)
      (by omega)
    rw [hwrap]
    exact ⟨a3, rfl, by omega⟩
  · intro hne hle hall
    have hlen : 0 < z_vals.length := List.length_pos.mpr hne
    rw [linearly_interpolate_z_vals, if_neg (by omega)]
    obtain ⟨a1, hplace, h1size, _, _⟩ := placeVals_spec num z_vals.length
      hlen hle z_vals 0 (Array.mkArray num 0) (by simp) (by omega)
    rw [hplace]
    simp only [Option.bind_eq_bind, Option.some_bind]
    have hmk : ∀ p, p < (Array.mkArray num (0 : ℚ)).size →
        (Array.mkArray num (0 : ℚ))[p]? = some 0 := by
      intro p hp
      simp only [Array.size_mkArray] at hp
      rw [Array.getElem?_mkArray]
      simp [hp]
    have hz1 := placeVals_zeros num z_vals.length z_vals 0
      (Array.mkArray num 0) a1 hplace hall hmk
    have hzero : ∀ (q : ℕ) (hq : q < a1.size), a1.get ⟨q, hq⟩ = 0 := by
      intro q hq
      have hv := hz1 q hq
      have he := Array.getElem?_eq_getElem hq
      rw [he] at hv
      exact Option.some.inj hv
    rw [scanNonzero_none a1 hzero a1.size 0 (by omega)]
    rfl

/-- Witness for C9 at `z_vals = [0, 2]`, `num_new_points = 4`: the safe
branch produces a 4-element array, and on the all-zero input `[0, 0]` the
function crashes (`none`). -/
theorem c9_linearly_interpolate_witness :
    (∃ a, linearly_interpolate_z_vals [(0 : ℚ), 2] 4 = some a ∧
      a.size = 4) ∧
    linearly_interpolate_z_vals [(0 : ℚ), 0] 4 = none := by
  constructor
  · exact (c9_linearly_interpolate_safe_iff_nonzero [(0 : ℚ), 2] 4).1
      (by norm_num) ⟨2, by norm_num, by norm_num⟩
  · exact (c9_linearly_interpolate_safe_iff_nonzero [(0 : ℚ), 0] 4).2
      (by simp) (by norm_num) (by norm_num)

end FormulaViz
